import Mathlib

/-!
Verification development for the PennyLane-fork repository fragments:
the `Hamiltonian` class of `pennylane/vqe/vqe.py`, the
`ApproxTimeEvolution` template of
`pennylane/templates/subroutines/approx_time_evolution.py`, the QAOA
helpers of `pennylane/qaoa/layers.py` and `pennylane/qaoa/cost.py`, and
the tape transform of `pennylane/transforms/hamiltonian_expval.py`.

The Python code is shallowly embedded: scalars are elements of the field
ℚ(√2, i) represented by four rationals (√2 is needed for the Hadamard
matrix, i for Pauli-Y and for complex matrix entries), matrices are lists
of lists of scalars, observables are an inductive type mirroring the
PennyLane operator classes used by the code, and fallible Python code
(raising exceptions) is embedded as `Except String` computations whose
error strings name the exception raised.
-/

set_option allowUnsafeReducibility true in
attribute [semireducible] Rat.add Rat.mul Rat.sub Rat.inv Rat.div

deriving instance DecidableEq for Except

namespace PennyLane

/-- Scalar field ℚ(√2, i): the value `(a + b·√2) + (c + d·√2)·i`.
The real and imaginary components are pairs `(x, y)` denoting `x + y·√2`. -/
structure K where
  re : ℚ × ℚ
  im : ℚ × ℚ
deriving DecidableEq, Repr

/-- Addition on `x + y·√2` components. -/
def q2add (x y : ℚ × ℚ) : ℚ × ℚ := (x.1 + y.1, x.2 + y.2)

/-- Multiplication on `x + y·√2` components (using `√2 · √2 = 2`). -/
def q2mul (x y : ℚ × ℚ) : ℚ × ℚ := (x.1 * y.1 + 2 * x.2 * y.2, x.1 * y.2 + x.2 * y.1)

/-- Negation on `x + y·√2` components. -/
def q2neg (x : ℚ × ℚ) : ℚ × ℚ := (-x.1, -x.2)

/-- Rational scaling of `x + y·√2` components. -/
def q2smul (q : ℚ) (x : ℚ × ℚ) : ℚ × ℚ := (q * x.1, q * x.2)

instance : Add K := ⟨fun x y => ⟨q2add x.re y.re, q2add x.im y.im⟩⟩

instance : Neg K := ⟨fun x => ⟨q2neg x.re, q2neg x.im⟩⟩

instance : Mul K :=
  ⟨fun x y =>
    ⟨q2add (q2mul x.re y.re) (q2neg (q2mul x.im y.im)),
     q2add (q2mul x.re y.im) (q2mul x.im y.re)⟩⟩

instance : Zero K := ⟨⟨(0, 0), (0, 0)⟩⟩

instance : One K := ⟨⟨(1, 0), (0, 0)⟩⟩

/-- Embedding of the rationals (real Python floats/ints) into the scalars. -/
def K.ofRat (q : ℚ) : K := ⟨(q, 0), (0, 0)⟩

/-- The imaginary unit. -/
def K.I : K := ⟨(0, 0), (1, 0)⟩

/-- Scaling of a scalar by a rational number. -/
def K.smul (q : ℚ) (x : K) : K := ⟨q2smul q x.re, q2smul q x.im⟩

/-- Division of a scalar by a nonzero integer (used for `/ n` and `/ 2^n`). -/
def K.divInt (x : K) (n : ℤ) : K := K.smul (1 / (n : ℚ)) x

/-- The scalar is real: its imaginary component vanishes
(embeds the Python test `np.imag(c) != 0`). -/
def K.isReal (x : K) : Bool := x.im = (0, 0)

/-- Left fold sum of a list of scalars (Python `+=` accumulation order). -/
def ksum (l : List K) : K := l.foldl (· + ·) 0

/-- Matrices are rectangular lists of rows of scalars. -/
abbrev Mat := List (List K)

/-- Kronecker product of two matrices, in NumPy `np.kron` row/column order. -/
def kron (A B : Mat) : Mat :=
  A.flatMap fun arow => B.map fun brow => arow.flatMap fun a => brow.map fun b => a * b

/-- The matrix has a nonzero entry off the main diagonal (embeds the Python
test `np.count_nonzero(m - np.diag(np.diagonal(m))) != 0`). -/
def offDiagNonzero (m : Mat) : Bool :=
  m.enum.any fun ir => ir.2.enum.any fun jx => decide (ir.1 ≠ jx.1) && decide (jx.2 ≠ 0)

/-- Trace of the matrix product `P * A`, that is `Σ i k, P i k * A k i`. -/
def traceMul (P A : Mat) : K :=
  ksum <| P.enum.map fun ir =>
    ksum <| ir.2.enum.map fun kx => kx.2 * (((A.getD kx.1 []).getD ir.1 0))

/-- The 2×2 matrix of the Pauli-X operator. -/
def matX : Mat := [[0, 1], [1, 0]]

/-- The 2×2 matrix of the Pauli-Y operator. -/
def matY : Mat := [[0, -K.I], [K.I, 0]]

/-- The 2×2 matrix of the Pauli-Z operator. -/
def matZ : Mat := [[1, 0], [0, -1]]

/-- The 2×2 identity matrix. -/
def matI : Mat := [[1, 0], [0, 1]]

/-- The 2×2 Hadamard matrix, with entries `± 1/√2 = ± √2/2`. -/
def matH : Mat :=
  [[⟨(0, 1/2), (0, 0)⟩, ⟨(0, 1/2), (0, 0)⟩],
   [⟨(0, 1/2), (0, 0)⟩, ⟨(0, -(1/2)), (0, 0)⟩]]

/-- Single-wire observables and the (possibly multi-wire) `Hermitian`
observable: the operator classes the source dispatches on, keyed by their
`name` attribute (`vqe.py` `OBS_MAP` plus `Hermitian`). -/
inductive BaseObs where
  | pauliX (wire : ℕ)
  | pauliY (wire : ℕ)
  | pauliZ (wire : ℕ)
  | identity (wire : ℕ)
  | hadamard (wire : ℕ)
  | hermitian (m : Mat) (ws : List ℕ)
deriving DecidableEq, Repr

/-- The Python `name` attribute of a base observable. -/
def BaseObs.name : BaseObs → String
  | .pauliX _ => "PauliX"
  | .pauliY _ => "PauliY"
  | .pauliZ _ => "PauliZ"
  | .identity _ => "Identity"
  | .hadamard _ => "Hadamard"
  | .hermitian _ _ => "Hermitian"

/-- The Python `wires` attribute of a base observable, as a label list. -/
def BaseObs.wires : BaseObs → List ℕ
  | .pauliX w => [w]
  | .pauliY w => [w]
  | .pauliZ w => [w]
  | .identity w => [w]
  | .hadamard w => [w]
  | .hermitian _ ws => ws

/-- The Python `matrix` attribute of a base observable. -/
def BaseObs.matrix : BaseObs → Mat
  | .pauliX _ => matX
  | .pauliY _ => matY
  | .pauliZ _ => matZ
  | .identity _ => matI
  | .hadamard _ => matH
  | .hermitian m _ => m

/-- An observable term of a Hamiltonian: either a bare observable
(whose Python `name` is a string) or a `Tensor` product of base
observables (whose Python `name` is the list of factor names). -/
inductive Obs where
  | base (b : BaseObs)
  | tensor (factors : List BaseObs)
deriving DecidableEq, Repr

/-- The factor list of a term; a bare observable has itself as only factor
(this is the view the source obtains by wrapping bare observables with
`Tensor(term)` before reading `term.obs`). -/
def Obs.factors : Obs → List BaseObs
  | .base b => [b]
  | .tensor l => l

/-- Whether the Python `name` attribute of the term is a string
(bare observable) rather than a list (tensor product). -/
def Obs.nameIsStr : Obs → Bool
  | .base _ => true
  | .tensor _ => false

/-- The Python `wires` attribute of a term: factor wires, concatenated. -/
def Obs.wires (o : Obs) : List ℕ := o.factors.flatMap BaseObs.wires

/-- The Python `matrix` attribute of a term: for a tensor it is
`functools.reduce(np.kron, factor matrices)` in factor order. -/
def Obs.matrix : Obs → Mat
  | .base b => b.matrix
  | .tensor [] => [[1]]
  | .tensor (b :: rest) => rest.foldl (fun acc x => kron acc x.matrix) b.matrix

/-- Embedding of `Tensor(*args)`: the PennyLane `Tensor` constructor
flattens tensor arguments into a single factor list. -/
def tensorFlat (l : List Obs) : Obs := Obs.tensor (l.flatMap Obs.factors)

/-- A Python object passed in an `observables` argument position: either
an `Observable` or some other object (carrying only a tag), so that the
`isinstance(obs, Observable)` check of the constructor can be embedded. -/
inductive PyObj where
  | obs (o : Obs)
  | notObs (tag : String)
deriving DecidableEq, Repr

/-- Whether the argument is an `Observable`. -/
def PyObj.isObs : PyObj → Bool
  | .obs _ => true
  | .notObs _ => false

/-- The `Hamiltonian` data: the `_coeffs` and `_ops` fields set by
`Hamiltonian.__init__` (`vqe.py` lines 80 and 81). -/
structure Hamiltonian where
  coeffs : List K
  ops : List Obs
deriving DecidableEq, Repr

/-- The observable-validation loop of the constructor (`vqe.py` lines 74
to 78): succeeds with the observable list when every entry is an
`Observable`, fails at the first entry that is not. -/
def asObsList : List PyObj → Option (List Obs)
  | [] => some []
  | .obs o :: rest => (asObsList rest).map (o :: ·)
  | .notObs _ :: _ => none

/-- Embedding of `Hamiltonian.__init__` (`vqe.py` lines 61 to 81): checks,
in source order, that the coefficient and observable counts match, that
all coefficients are real-valued (the source's
`any(np.imag(coeffs) != 0)` guard, stated contrapositively), and that
every observable argument is an `Observable`, raising `ValueError`
otherwise. -/
def mkHamiltonian (coeffs : List K) (observables : List PyObj) : Except String Hamiltonian :=
  if coeffs.length ≠ observables.length then
    .error "ValueError: Could not create valid Hamiltonian; number of coefficients and operators does not match."
  else if coeffs.all K.isReal then
    match asObsList observables with
    | some ops => .ok ⟨coeffs, ops⟩
    | none => .error "ValueError: Could not create circuits. Some or all observables are not valid."
  else
    .error "ValueError: Could not create valid Hamiltonian; coefficients are not real-valued."

/-- Call of the `Hamiltonian` constructor on arguments that are already
observables (as every internal call site of the source does). -/
def mkHamiltonianO (coeffs : List K) (ops : List Obs) : Except String Hamiltonian :=
  mkHamiltonian coeffs (ops.map PyObj.obs)

/-- The invariant of the `Hamiltonian` class claimed by the specification:
the coefficient count equals the term count and all coefficients are
real-valued. -/
def Hamiltonian.validb (h : Hamiltonian) : Bool :=
  decide (h.coeffs.length = h.ops.length) && h.coeffs.all K.isReal

/-- A `wire_map` argument: either a Python `dict` (embedded as an
association list; a `dict` has unique keys, and lookup takes the first
matching entry) or an object of some other type. -/
inductive WireMapArg where
  | dict (entries : List (ℕ × ℕ))
  | notDict (tag : String)
deriving DecidableEq, Repr

/-- The function `f` of `map_wires` (`vqe.py` line 148): look the wire up
in the map and keep it unchanged when it is not a key. -/
def mapWire (entries : List (ℕ × ℕ)) (w : ℕ) : ℕ :=
  match entries.find? fun p => p.1 = w with
  | some p => p.2
  | none => w

/-- Per-factor body of the `map_wires` loop (`vqe.py` lines 156 to 164):
the factor is rebuilt by dispatching on its `name` through the `obs`
dictionary, passing the matrix along for `Hermitian` factors and the
mapped wires for all factors. -/
def mapFactor (f : ℕ → ℕ) (b : BaseObs) : BaseObs :=
  match b with
  | .pauliX w => .pauliX (f w)
  | .pauliY w => .pauliY (f w)
  | .pauliZ w => .pauliZ (f w)
  | .identity w => .identity (f w)
  | .hadamard w => .hadamard (f w)
  | .hermitian m ws => .hermitian m (ws.map f)

/-- Embedding of `Hamiltonian.map_wires` (`vqe.py` lines 126 to 168):
raises `ValueError` when `wire_map` is not a `dict`; otherwise each term
is wrapped into a `Tensor` when bare, each factor is rebuilt with its
wires mapped, and the result is returned through the constructor with the
receiver's coefficients. -/
def Hamiltonian.map_wires (h : Hamiltonian) (wm : WireMapArg) : Except String Hamiltonian :=
  match wm with
  | .notDict tag => .error ("ValueError: wire_map must be of type dict, got " ++ tag)
  | .dict entries =>
    let f := mapWire entries
    let new_terms := h.ops.map fun term => Obs.tensor (term.factors.map (mapFactor f))
    mkHamiltonianO h.coeffs new_terms

/-- The matrix of the single-qubit Pauli word letter. -/
def pauliLetterMat : Char → Mat
  | 'X' => matX
  | 'Y' => matY
  | 'Z' => matZ
  | _ => matI

/-- All Pauli words of the given length, in `itertools.product` order
(leftmost position varying slowest). -/
def pauliWords : ℕ → List (List Char)
  | 0 => [[]]
  | n + 1 => ['I', 'X', 'Y', 'Z'].flatMap fun c => (pauliWords n).map (c :: ·)

/-- The matrix of a Pauli word (Kronecker product of its letters). -/
def wordMat (w : List Char) : Mat :=
  match w with
  | [] => [[1]]
  | c :: rest => rest.foldl (fun acc x => kron acc (pauliLetterMat x)) (pauliLetterMat c)

/-- The base observable of a Pauli word letter on the given wire. -/
def letterObs (c : Char) (w : ℕ) : BaseObs :=
  match c with
  | 'X' => .pauliX w
  | 'Y' => .pauliY w
  | 'Z' => .pauliZ w
  | _ => .identity w

/-- The observable of a Pauli word, letter `k` acting on wire `k`:
a bare observable for a one-letter word, a tensor product otherwise. -/
def wordObs (w : List Char) : Obs :=
  match w with
  | [c] => .base (letterObs c 0)
  | _ => .tensor (w.enum.map fun p => letterObs p.2 p.1)

/-- Modelled from the spec: `pennylane.utils.decompose_hamiltonian` is not
part of the repository sources; the specification describes it as
expanding a Hermitian matrix into pure-Pauli form by numerical
decomposition. It is modelled as the canonical Pauli-basis expansion of a
`2^n` by `2^n` matrix `A`: the coefficient of the Pauli word `P` is
`tr(P * A) / 2^n`, words with coefficient zero are dropped, and word
letter `k` acts on wire `k`. -/
def decompose_hamiltonian (A : Mat) : Except String (List K × List Obs) :=
  let dim := A.length
  let n := ((List.range (dim + 1)).find? fun m => 2 ^ m = dim).getD 0
  if 2 ^ n = dim ∧ ∀ row ∈ A, row.length = dim then
    let pairs := (pauliWords n).filterMap fun w =>
      let c := (traceMul (wordMat w) A).divInt ((2 : ℤ) ^ n)
      if c = 0 then none else some (c, wordObs w)
    .ok (pairs.map Prod.fst, pairs.map Prod.snd)
  else
    .error "ValueError: Hamiltonian matrix must be of dimension 2 to the n"

/-- The term re-wrapping at the top of the `decompose` loop (`vqe.py`
lines 182 and 183): a term whose `name` list has one entry is wrapped
into a (flattened) `Tensor`. -/
def tensorWrapIfSingle (t : Obs) : Obs :=
  if t.factors.length = 1 then Obs.tensor t.factors else t

/-- Body of the inner factor loop of `decompose` (`vqe.py` lines 187 to
195) for the term at Hamiltonian index `i`: a `Hermitian` factor is
expanded through `decompose_hamiltonian`, rebuilt as a Hamiltonian, and
remapped onto the factor's wires; any other factor `j` contributes the
single pair `(1, term.obs[i])` — faithfully keeping the source's use of
the outer index `i` where `j` was evidently intended. -/
def hermFactorExpand (term : Obs) (i : ℕ) (fb : BaseObs) : Except String (List (K × Obs)) :=
  if fb.name = "Hermitian" then do
    let rd ← decompose_hamiltonian fb.matrix
    let rh ← mkHamiltonianO rd.1 rd.2
    let mapped ← rh.map_wires (.dict ((List.range fb.wires.length).zip fb.wires))
    pure (mapped.coeffs.zip mapped.ops)
  else
    match term.factors.get? i with
    | none => .error "IndexError: list index out of range"
    | some ob => pure [((1 : K), Obs.base ob)]

/-- Cartesian product of lists in `itertools.product` order. -/
def listProd {α : Type} : List (List α) → List (List α)
  | [] => [[]]
  | l :: ls => l.flatMap fun x => (listProd ls).map (x :: ·)

/-- The `Hermitian` branch of the `decompose` term loop (`vqe.py` lines
185 to 202): expand every factor, take the Cartesian product of the
expansions, and rewrite each product tuple `b` into
`((b[0][0] * coeffs[i], b[0][1]), b[1])` — faithfully keeping the
source's behaviour of dropping all entries of `b` beyond the second and
raising `IndexError` when `b` has fewer than two entries. -/
def decomposeTermHerm (h : Hamiltonian) (i : ℕ) (term : Obs) : Except String (List (List (K × Obs))) := do
  let reduced ← term.factors.mapM fun fb => hermFactorExpand term i fb
  (listProd reduced).mapM fun b => do
    match b.get? 0 with
    | none => .error "IndexError: tuple index out of range"
    | some b0 =>
      match h.coeffs.get? i with
      | none => .error "IndexError: list index out of range"
      | some c =>
        match b.get? 1 with
        | none => .error "IndexError: tuple index out of range"
        | some b1 => pure [(b0.1 * c, b0.2), b1]

/-- The contribution of the term at Hamiltonian index `i` to the
`decompose` term list (`vqe.py` lines 180 to 205). -/
def decomposeTerm (h : Hamiltonian) (i : ℕ) (t : Obs) : Except String (List (List (K × Obs))) :=
  let term := tensorWrapIfSingle t
  let names := term.factors.map BaseObs.name
  if "Hermitian" ∈ names then
    decomposeTermHerm h i term
  else
    match h.coeffs.get? i with
    | none => .error "IndexError: list index out of range"
    | some c => .ok [[(c, term)]]

/-- The term loop of `decompose` (`vqe.py` lines 178 to 205), producing
the list of product tuples `terms` (each a list of coefficient/observable
pairs) in term order, starting from index `i`. -/
def decomposeBuildAux (h : Hamiltonian) : ℕ → List Obs → Except String (List (List (K × Obs)))
  | _, [] => .ok []
  | i, t :: rest => do
    let head ← decomposeTerm h i t
    let tail ← decomposeBuildAux h (i + 1) rest
    pure (head ++ tail)

/-- The full `decompose` term loop over the receiver's terms. -/
def decomposeBuild (h : Hamiltonian) : Except String (List (List (K × Obs))) :=
  decomposeBuildAux h 0 h.ops

/-- The final coefficient of a product tuple (`vqe.py` lines 211 to 214):
the product of its pair coefficients, starting from `1`. -/
def finalizeCoeff (term : List (K × Obs)) : K := term.foldl (fun a p => a * p.1) 1

/-- The final observable of a product tuple (`vqe.py` lines 215 to 218):
the flattening `Tensor(*tensor)` of its pair observables. -/
def finalizeObs (term : List (K × Obs)) : Obs := tensorFlat (term.map Prod.snd)

/-- Embedding of `Hamiltonian.decompose` (`vqe.py` lines 171 to 220). -/
def Hamiltonian.decompose (h : Hamiltonian) : Except String Hamiltonian :=
  (decomposeBuild h).bind fun ts =>
    mkHamiltonianO (ts.map finalizeCoeff) (ts.map finalizeObs)

/-- Modelled from the spec: `Tensor.prune` of `pennylane.operation` is not
part of the repository sources; following the specification's "pruning
identities", it removes `Identity` factors from a tensor product,
returning the identity on the tensor's first wire when nothing remains,
the bare factor when exactly one remains, and a tensor product otherwise. -/
def pruneTensor (l : List BaseObs) (origWires : List ℕ) : Obs :=
  match l.filter fun b => b.name != "Identity" with
  | [] => .base (.identity (origWires.headD 0))
  | [b] => .base b
  | l' => .tensor l'

/-- The pruning line of `is_diagonal` (`vqe.py` line 239): only `Tensor`
terms are pruned. -/
def pruneIfTensor (t : Obs) : Obs :=
  match t with
  | .base b => .base b
  | .tensor l => pruneTensor l (Obs.wires (.tensor l))

/-- The key under which `is_diagonal` combines like terms:
`[term.matrix.tolist(), term.wires]` (`vqe.py` line 244). -/
abbrev DiagKey := Mat × List ℕ

/-- Python's `list.index`: the first index holding the key, if any. -/
def listIndexOf : List DiagKey → DiagKey → Option ℕ
  | [], _ => none
  | k :: rest, key => if k == key then some 0 else (listIndexOf rest key).map (· + 1)

/-- The like-term combination of `is_diagonal` (`vqe.py` lines 246 to
250): add the coefficient at the first index of an already-seen key
(Python `in` / `list.index`), or append a new key and coefficient. -/
def diagInsert (st : List K × List DiagKey) (key : DiagKey) (c : K) : List K × List DiagKey :=
  match listIndexOf st.2 key with
  | some idx => (st.1.set idx (st.1.getD idx 0 + c), st.2)
  | none => (st.1 ++ [c], st.2 ++ [key])

/-- Body of the `is_diagonal` term loop (`vqe.py` lines 236 to 250) over
the decomposed Hamiltonian's terms: prune, skip diagonal matrices, and
combine like non-diagonal terms — faithfully indexing `self._coeffs`
(the receiver's coefficients, not the decomposed ones) by the loop
index. -/
def diagStep (coeffs : List K) (st : List K × List DiagKey) (it : ℕ × Obs) : Except String (List K × List DiagKey) :=
  if offDiagNonzero (pruneIfTensor it.2).matrix then
    match coeffs.get? it.1 with
    | none => .error "IndexError: list index out of range"
    | some c => .ok (diagInsert st ((pruneIfTensor it.2).matrix, (pruneIfTensor it.2).wires) c)
  else
    .ok st

/-- The `is_diagonal` term loop (`vqe.py` lines 236 to 250) over the
decomposed terms, threading the accumulated coefficients and keys and
counting terms from index `i`. -/
def diagLoop (coeffs : List K) : ℕ → List Obs → List K × List DiagKey → Except String (List K × List DiagKey)
  | _, [], st => .ok st
  | i, t :: rest, st =>
    (diagStep coeffs st (i, t)).bind fun st' => diagLoop coeffs (i + 1) rest st'

/-- Embedding of `Hamiltonian.is_diagonal` (`vqe.py` lines 222 to 256):
decompose, accumulate non-diagonal like terms, and test that every
accumulated coefficient is zero (the exact-arithmetic reading of
`np.allclose(non_diagonal_coeffs, 0)`). -/
def Hamiltonian.is_diagonal (h : Hamiltonian) : Except String Bool :=
  (h.decompose).bind fun exp_h =>
    (diagLoop h.coeffs 0 exp_h.ops ([], [])).map fun st =>
      st.1.all fun c => c == 0

/-- A `hamiltonian` argument position: either a `pennylane.Hamiltonian`
or an object of some other type, so that the `isinstance` checks of
`ApproxTimeEvolution`, `cost_layer` and `mixer_layer` can be embedded. -/
inductive HamArg where
  | ham (h : Hamiltonian)
  | notHam (tag : String)
deriving DecidableEq, Repr

/-- An `n` argument position of `ApproxTimeEvolution`: a Python `int` or
an object of some other type. (Symbolic `qml.variable.Variable`
placeholders, resolved only at circuit call time by the surrounding
framework, are outside this embedding.) -/
inductive IntArg where
  | int (n : ℤ)
  | notInt (tag : String)
deriving DecidableEq, Repr

/-- A `time` argument position of `ApproxTimeEvolution`: a Python `int`
or `float` (both embedded as rationals) or an object of some other
type. -/
inductive TimeArg where
  | int (t : ℤ)
  | float (t : ℚ)
  | notNum (tag : String)
deriving DecidableEq, Repr

/-- The numeric value of an `int` or `float` time argument. -/
def TimeArg.val : TimeArg → ℚ
  | .int t => (t : ℚ)
  | .float t => t
  | .notNum _ => 0

/-- A queued `PauliRot(theta, word, wires)` gate. -/
structure PauliRotGate where
  theta : K
  word : List Char
  onWires : List ℕ
deriving DecidableEq, Repr

/-- The `pauli` letter dictionary of `ApproxTimeEvolution`
(`approx_time_evolution.py` line 98): `Hadamard` and `Hermitian` names
miss the dictionary, which the source converts into a `ValueError`. -/
def pauliLetter (name : String) : Except String Char :=
  if name = "Identity" then .ok 'I'
  else if name = "PauliX" then .ok 'X'
  else if name = "PauliY" then .ok 'Y'
  else if name = "PauliZ" then .ok 'Z'
  else .error ("ValueError: hamiltonian must be written in terms of Pauli matrices, got " ++ name)

/-- The Pauli word of a factor list: one letter per factor name, in
order, failing at the first non-Pauli factor. -/
def wordOfFactors : List BaseObs → Except String (List Char)
  | [] => .ok []
  | b :: rest =>
    (pauliLetter b.name).bind fun c => (wordOfFactors rest).map (c :: ·)

/-- The Pauli word of a term: one letter per factor name, in order. -/
def termWord (t : Obs) : Except String (List Char) :=
  wordOfFactors t.factors

/-- The first loop of `ApproxTimeEvolution` (`approx_time_evolution.py`
lines 124 to 151), collecting `(theta, pauli_word, wire_index)` triples:
for the term at index `i`, `theta = (-2 * time * coeffs[i]) / n` (raising
`ZeroDivisionError` when `n = 0`), the word is built from the factor
names (raising `ValueError` on a non-Pauli name), and terms whose word is
all `I` are skipped. -/
def ateCollect (coeffs : List K) (time : ℚ) (n : ℤ) : ℕ → List Obs → Except String (List (K × List Char × List ℕ))
  | _, [] => .ok []
  | i, term :: rest =>
    match coeffs.get? i with
    | none => .error "IndexError: list index out of range"
    | some c =>
      if n = 0 then
        .error "ZeroDivisionError: division by zero"
      else
        (termWord term).bind fun word =>
          (ateCollect coeffs time n (i + 1) rest).map fun tail =>
            if (word.filter fun ch => ch == 'I').length ≠ word.length then
              ((K.ofRat (-2 * time) * c).divInt n, word, term.wires) :: tail
            else
              tail

/-- The wire list of a queued gate: `[wires[k] for k in wire_index[j]]`
(`approx_time_evolution.py` line 156), raising `IndexError` when a term
wire exceeds the wires argument. -/
def lookupWires (wires : List ℕ) : List ℕ → Except String (List ℕ)
  | [] => .ok []
  | k :: rest =>
    match wires.get? k with
    | none => .error "IndexError: list index out of range"
    | some w => (lookupWires wires rest).map (w :: ·)

/-- One queued gate of the emission loop (`approx_time_evolution.py` line
156): `PauliRot(theta[j], word, wires=[wires[k] for k in wire_index[j]])`. -/
def ateGate (wires : List ℕ) (trip : K × List Char × List ℕ) : Except String PauliRotGate :=
  (lookupWires wires trip.2.2).map fun ws => ⟨trip.1, trip.2.1, ws⟩

/-- The inner emission loop (`approx_time_evolution.py` lines 155 and
156): one `PauliRot` gate per collected triple, in order. -/
def ateEmitSeq (wires : List ℕ) : List (K × List Char × List ℕ) → Except String (List PauliRotGate)
  | [] => .ok []
  | t :: rest =>
    (ateGate wires t).bind fun g => (ateEmitSeq wires rest).map (g :: ·)

/-- The outer emission loop (`approx_time_evolution.py` line 153): the
gate sequence is queued once per Trotter step. -/
def ateEmitRep (wires : List ℕ) (trips : List (K × List Char × List ℕ)) : ℕ → Except String (List PauliRotGate)
  | 0 => .ok []
  | m + 1 =>
    (ateEmitSeq wires trips).bind fun g => (ateEmitRep wires trips m).map (g ++ ·)

/-- The emission double loop of `ApproxTimeEvolution`
(`approx_time_evolution.py` lines 153 to 156) — `range(n)` of a negative
`n` is empty. -/
def ateEmit (wires : List ℕ) (trips : List (K × List Char × List ℕ)) (n : ℤ) : Except String (List PauliRotGate) :=
  ateEmitRep wires trips n.toNat

/-- Embedding of `ApproxTimeEvolution(hamiltonian, time, n, wires)`
(`approx_time_evolution.py` lines 24 to 156): the input type checks in
source order, then gate collection and emission. The result is the list
of queued `PauliRot` gates. -/
def approx_time_evolution (ha : HamArg) (ta : TimeArg) (na : IntArg) (wires : List ℕ) : Except String (List PauliRotGate) :=
  match ha with
  | .notHam tag => .error ("ValueError: hamiltonian must be of type pennylane.Hamiltonian, got " ++ tag)
  | .ham h =>
    match na with
    | .notInt tag => .error ("ValueError: N must be of type int, got " ++ tag)
    | .int n =>
      match ta with
      | .notNum tag => .error ("ValueError: time must be of type int or float, got " ++ tag)
      | ta =>
        (ateCollect h.coeffs ta.val n 0 h.ops).bind fun trips => ateEmit wires trips n

/-- Embedding of `_diagonal_terms(hamiltonian)` (`layers.py` lines 20 to
30): every factor of every term is named `PauliZ` or `Identity`. -/
def _diagonal_terms (h : Hamiltonian) : Bool :=
  h.ops.all fun t => t.factors.all fun b => b.name == "PauliZ" || b.name == "Identity"

/-- Embedding of `cost_layer(hamiltonian)` (`layers.py` lines 33 to 45):
raises `ValueError` on a non-Hamiltonian argument or on a Hamiltonian
with a factor that is not `PauliZ` or `Identity`; otherwise it returns a
callable (embedded as a successful unit result). -/
def cost_layer (ha : HamArg) : Except String Unit :=
  match ha with
  | .notHam tag => .error ("ValueError: hamiltonian must be of type pennylane.Hamiltonian, got " ++ tag)
  | .ham h =>
    if ¬ _diagonal_terms h then
      .error "ValueError: hamiltonian must be written only in terms of PauliZ and Identity gates"
    else
      .ok ()

/-- A `graph` argument position of `edge_driver`: either a `networkx`
graph (embedded as its edge list) or an object of some other type. -/
inductive GraphArg where
  | graph (edges : List (ℕ × ℕ))
  | notGraph (tag : String)
deriving DecidableEq, Repr

/-- First-occurrence deduplication, embedding the element set of a Python
list where only membership and cardinality are observed. -/
def dedupFirst {α : Type} [DecidableEq α] (l : List α) : List α :=
  l.foldl (fun acc x => if x ∈ acc then acc else acc ++ [x]) []

/-- The value held by the `reward` variable of `edge_driver` after line
45: the set difference leaves a list of strings, which line 49 replaces
by a single string only when the difference has exactly two elements.
The string comparisons of lines 55 to 65 are embedded so that a list
value never equals a string value, as in Python. -/
inductive RewardVal where
  | str (s : String)
  | strList (l : List String)
deriving DecidableEq, Repr

/-- Embedding of `edge_driver(graph, reward)` (`cost.py` lines 38 to 70).
Line 45 forms `list(set(reward) - set(["01"]))`; when that has exactly
two elements, line 49 re-binds `reward` to the single element of
`set(["00", "10", "11"]) - set(reward)` and flips the sign. The three
equality tests against the strings `"00"`, `"10"` and `"11"` then select
which coefficients and operators are emitted per graph edge; when
`reward` is still a list, all three tests are false and the Hamiltonian
is empty. -/
def edge_driver (g : GraphArg) (reward : List String) : Except String Hamiltonian :=
  match g with
  | .notGraph tag => .error ("ValueError: Input graph must be a nx.Graph object, got " ++ tag)
  | .graph edges =>
    let r0 := dedupFirst (reward.filter fun s => s != "01")
    let rs : RewardVal × K :=
      if r0.length = 2 then
        ((.str ((["00", "10", "11"].filter fun s => decide (s ∉ reward)).headD "")), 1)
      else
        (.strList r0, -(1 : K))
    let sign := rs.2
    if rs.1 = .str "00" then
      mkHamiltonianO
        (edges.flatMap fun _ => [K.smul (1/2) sign, K.smul (1/2) sign, K.smul (1/2) sign])
        (edges.flatMap fun e => [Obs.tensor [.pauliZ e.1, .pauliZ e.2], .base (.pauliZ e.1), .base (.pauliZ e.2)])
    else if rs.1 = .str "10" then
      mkHamiltonianO
        (edges.map fun _ => -sign)
        (edges.map fun e => Obs.tensor [.pauliZ e.1, .pauliZ e.2])
    else if rs.1 = .str "11" then
      mkHamiltonianO
        (edges.flatMap fun _ => [K.smul (1/2) sign, K.smul (-(1/2)) sign, K.smul (-(1/2)) sign])
        (edges.flatMap fun e => [Obs.tensor [.pauliZ e.1, .pauliZ e.2], .base (.pauliZ e.1), .base (.pauliZ e.2)])
    else
      mkHamiltonianO [] []

/-- The cost-Hamiltonian component of `maxcut(graph)` (`cost.py` line
114): `edge_driver(graph, ["10", "01"])`. The mixer component
(`qaoa.x_mixer(graph.nodes)`) is elided: `x_mixer` lives in
`qaoa/mixers.py`, which does not parse (syntax error on its
`isinstance` line) and in any case takes an integer wire count. -/
def maxcut_cost (edges : List (ℕ × ℕ)) : Except String Hamiltonian :=
  edge_driver (.graph edges) ["10", "01"]

/-- A measurement of a quantum tape, as far as `hamiltonian_expval`
observes it: an expectation value whose observable is either a
`qml.Hamiltonian` or some other observable. -/
inductive Measurement where
  | expvalH (h : Hamiltonian)
  | expvalObs (tag : String)
deriving DecidableEq, Repr

/-- Whether the measurement's observable is a `qml.Hamiltonian`. -/
def Measurement.isHam : Measurement → Bool
  | .expvalH _ => true
  | .expvalObs _ => false

/-- A quantum tape, as far as `hamiltonian_expval` observes it: its
measurement list. -/
structure QuantumTape where
  measurements : List Measurement
deriving DecidableEq, Repr

/-- Embedding of `hamiltonian_expval(tape)` (`hamiltonian_expval.py`
lines 22 to 74). Line 66 indexes `tape.measurements[0]` (an `IndexError`
on a tape without measurements); line 68 raises `ValueError` unless the
first observable is a Hamiltonian and the measurement is unique; line 73
then calls `hamiltonian.simplify()`, but the `Hamiltonian` class of
`vqe.py` defines no `simplify` method, so every surviving call raises
`AttributeError` (and the following line would reference the undefined
name `H`); the `measurement_grouping` return is unreachable. -/
def hamiltonian_expval (tape : QuantumTape) : Except String Unit :=
  match tape.measurements.get? 0 with
  | none => .error "IndexError: list index out of range"
  | some m =>
    if ¬ m.isHam ∨ tape.measurements.length > 1 then
      .error "ValueError: Passed tape must end in qml.expval(H), where H is of type qml.Hamiltonian"
    else
      .error "AttributeError: Hamiltonian object has no attribute simplify"

/-- State-explicit embedding of the `map_wires` call (the receiver's
fields threaded through the call): the method body (`vqe.py` lines 126
to 168) contains no assignment to `self._coeffs` or `self._ops`, so the
faithful state-threaded translation returns the receiver unchanged
alongside the result. -/
def Hamiltonian.map_wiresS (h : Hamiltonian) (wm : WireMapArg) : Hamiltonian × Except String Hamiltonian :=
  (h, h.map_wires wm)

/-- State-explicit embedding of the `decompose` call: the method body
(`vqe.py` lines 171 to 220) contains no assignment to `self._coeffs` or
`self._ops`, so the faithful state-threaded translation returns the
receiver unchanged alongside the result. -/
def Hamiltonian.decomposeS (h : Hamiltonian) : Hamiltonian × Except String Hamiltonian :=
  (h, h.decompose)

/-- The string names a raised Python `ValueError` (all embedded error
strings carry the exception class up front). -/
def isValueError (e : String) : Bool :=
  "ValueError".data.isPrefixOf e.data

/-- The result is a raised Python `ValueError`. -/
def raisesValueError {α : Type} (r : Except String α) : Prop :=
  ∃ e, r = .error e ∧ isValueError e = true

lemma isPrefixOf_extend : ∀ (p l t : List Char), p.isPrefixOf l = true → p.isPrefixOf (l ++ t) = true := by
  intro p
  induction p with
  | nil =>
    intro l t _
    cases l <;> cases t <;> rfl
  | cons a p' ih =>
    intro l t h
    cases l with
    | nil => exact absurd h (by simp [List.isPrefixOf])
    | cons b l' =>
      simp only [List.isPrefixOf, List.cons_append, Bool.and_eq_true] at h ⊢
      exact ⟨h.1, ih l' t h.2⟩

lemma isValueError_append (s tag : String) (h : isValueError s = true) :
    isValueError (s ++ tag) = true := by
  unfold isValueError at h ⊢
  rw [String.data_append]
  exact isPrefixOf_extend _ _ _ h

lemma K.zero_add (x : K) : 0 + x = x := by
  cases x with
  | mk re im =>
    show K.mk (q2add (0, 0) re) (q2add (0, 0) im) = K.mk re im
    simp [q2add]

lemma K.one_mul (x : K) : 1 * x = x := by
  cases x with
  | mk re im =>
    show K.mk (q2add (q2mul (1, 0) re) (q2neg (q2mul (0, 0) im)))
              (q2add (q2mul (1, 0) im) (q2mul (0, 0) re)) = K.mk re im
    cases re; cases im
    simp [q2add, q2mul, q2neg]

lemma asObsList_map_obs (o : List Obs) : asObsList (o.map PyObj.obs) = some o := by
  induction o with
  | nil => rfl
  | cons a l ih => simp [asObsList, ih]

lemma asObsList_isSome_iff (l : List PyObj) :
    (asObsList l).isSome = true ↔ l.all PyObj.isObs = true := by
  induction l with
  | nil => simp [asObsList]
  | cons a l ih =>
    cases a with
    | obs o => simpa [asObsList, PyObj.isObs] using ih
    | notObs t => simp [asObsList, PyObj.isObs]

lemma asObsList_length {l : List PyObj} {o : List Obs} (h : asObsList l = some o) :
    o.length = l.length := by
  induction l generalizing o with
  | nil => simp [asObsList] at h; subst h; rfl
  | cons a rest ih =>
    cases a with
    | obs x =>
      simp only [asObsList, Option.map_eq_some'] at h
      obtain ⟨o', ho', rfl⟩ := h
      simp [ih ho']
    | notObs t => simp [asObsList] at h

lemma mk_ok_of_good (c : List K) (o : List Obs) (hlen : c.length = o.length)
    (hre : c.all K.isReal = true) : mkHamiltonianO c o = .ok ⟨c, o⟩ := by
  simp [mkHamiltonianO, mkHamiltonian, hlen, hre, asObsList_map_obs]

lemma mk_ok_valid {c : List K} {obs : List PyObj} {h : Hamiltonian}
    (hok : mkHamiltonian c obs = .ok h) : h.validb = true := by
  unfold mkHamiltonian at hok
  split at hok
  · exact absurd hok (by simp)
  next h1 =>
    split at hok
    next h2 =>
      split at hok
      next ops hsome =>
        cases hok
        have hlen : ops.length = obs.length := asObsList_length hsome
        simp [Hamiltonian.validb, h2]
        omega
      next => exact absurd hok (by simp)
    next => exact absurd hok (by simp)

/-- C1: the `Hamiltonian` constructor succeeds exactly on inputs with
matching coefficient and observable counts, real-valued coefficients and
observable entries (raising `ValueError` on every other input), every
constructed Hamiltonian satisfies the count/realness invariant, and the
Hamiltonians returned by `map_wires` and by `decompose` satisfy the
invariant again. -/
theorem hamiltonian_invariant :
    (∀ (coeffs : List K) (observables : List PyObj),
      (∃ h, mkHamiltonian coeffs observables = .ok h) ↔
        (coeffs.length = observables.length ∧ coeffs.all K.isReal = true ∧
          observables.all PyObj.isObs = true))
    ∧ (∀ (coeffs : List K) (observables : List PyObj) (h : Hamiltonian),
        mkHamiltonian coeffs observables = .ok h → h.validb = true)
    ∧ (∀ (h : Hamiltonian) (wm : WireMapArg) (h' : Hamiltonian),
        h.map_wires wm = .ok h' → h'.validb = true)
    ∧ (∀ (h h' : Hamiltonian), h.decompose = .ok h' → h'.validb = true) := by
  refine ⟨?_, ?_, ?_, ?_⟩
  · intro coeffs observables
    constructor
    · rintro ⟨h, hok⟩
      unfold mkHamiltonian at hok
      split at hok
      · exact absurd hok (by simp)
      next h1 =>
        split at hok
        next h2 =>
          split at hok
          next ops hsome =>
            refine ⟨by omega, h2, ?_⟩
            rw [← asObsList_isSome_iff, hsome]
            rfl
          next => exact absurd hok (by simp)
        next => exact absurd hok (by simp)
    · rintro ⟨hlen, hre, hobs⟩
      rw [← asObsList_isSome_iff, Option.isSome_iff_exists] at hobs
      obtain ⟨ops, hops⟩ := hobs
      exact ⟨⟨coeffs, ops⟩, by simp [mkHamiltonian, hlen, hre, hops]⟩
  · intro coeffs observables h hok
    exact mk_ok_valid hok
  · intro h wm h' hok
    cases wm with
    | notDict tag => exact absurd hok (by simp [Hamiltonian.map_wires])
    | dict entries => exact mk_ok_valid hok
  · intro h h' hok
    unfold Hamiltonian.decompose at hok
    cases hbuild : decomposeBuild h with
    | error e => rw [hbuild] at hok; exact absurd hok (by simp [Except.bind])
    | ok ts =>
      rw [hbuild] at hok
      exact mk_ok_valid hok

/-- Witness for C1 at a concrete constructor call. -/
theorem hamiltonian_invariant_witness :
    mkHamiltonian [K.ofRat 1] [PyObj.obs (.base (.pauliX 0))] =
      .ok ⟨[K.ofRat 1], [.base (.pauliX 0)]⟩
    ∧ Hamiltonian.validb ⟨[K.ofRat 1], [.base (.pauliX 0)]⟩ = true := by
  refine ⟨by decide, ?_⟩
  exact hamiltonian_invariant.2.1 [K.ofRat 1] [PyObj.obs (.base (.pauliX 0))] _ (by decide)

lemma mapFactor_name (f : ℕ → ℕ) (b : BaseObs) : (mapFactor f b).name = b.name := by
  cases b <;> rfl

lemma mapFactor_matrix (f : ℕ → ℕ) (b : BaseObs) : (mapFactor f b).matrix = b.matrix := by
  cases b <;> rfl

lemma mapFactor_wires (f : ℕ → ℕ) (b : BaseObs) : (mapFactor f b).wires = b.wires.map f := by
  cases b <;> rfl

lemma validb_parts {h : Hamiltonian} (hv : h.validb = true) :
    h.coeffs.length = h.ops.length ∧ h.coeffs.all K.isReal = true := by
  simpa [Hamiltonian.validb] using hv

/-- C3: on a well-formed Hamiltonian, `map_wires` with a `dict` argument
returns a Hamiltonian with the same coefficients, whose `k`-th term has
the factors of the `k`-th term of the receiver with every operator name
and matrix preserved and every wire sent through the wire map (mapped
when a key, unchanged otherwise); a non-`dict` argument raises
`ValueError`. -/
theorem map_wires_spec :
    ∀ (h : Hamiltonian) (entries : List (ℕ × ℕ)), h.validb = true →
      (∃ h', h.map_wires (.dict entries) = .ok h' ∧
        h'.coeffs = h.coeffs ∧
        h'.ops.length = h.ops.length ∧
        ∀ k,
          ((h'.ops.get? k).map fun t => t.factors.map BaseObs.name) =
            ((h.ops.get? k).map fun t => t.factors.map BaseObs.name) ∧
          ((h'.ops.get? k).map fun t => t.factors.map BaseObs.matrix) =
            ((h.ops.get? k).map fun t => t.factors.map BaseObs.matrix) ∧
          ((h'.ops.get? k).map fun t => t.factors.map BaseObs.wires) =
            ((h.ops.get? k).map fun t => t.factors.map fun b => b.wires.map (mapWire entries)))
      ∧ ∀ tag, ∃ e, h.map_wires (.notDict tag) = .error e ∧ isValueError e = true := by
  intro h entries hv
  obtain ⟨hlen, hre⟩ := validb_parts hv
  constructor
  · refine ⟨⟨h.coeffs, h.ops.map fun t => Obs.tensor (t.factors.map (mapFactor (mapWire entries)))⟩,
      ?_, rfl, by simp, ?_⟩
    · show mkHamiltonianO h.coeffs _ = _
      exact mk_ok_of_good _ _ (by simp [hlen]) hre
    · intro k
      show ((h.ops.map fun t =>
          Obs.tensor (t.factors.map (mapFactor (mapWire entries)))).get? k).map _ = _ ∧ _ ∧ _
      simp only [List.get?_map]
      cases hk : h.ops.get? k with
      | none => simp
      | some t =>
        refine ⟨?_, ?_, ?_⟩ <;>
          simp [Option.map_some', Obs.factors, Function.comp,
            mapFactor_name, mapFactor_matrix, mapFactor_wires]
  · intro tag
    exact ⟨_, rfl, isValueError_append _ tag (by decide)⟩

/-- Witness for C3 at a concrete Hamiltonian and wire map: the
hypothesis holds there and the mapped Hamiltonian evaluates as the
theorem describes. -/
theorem map_wires_spec_witness :
    Hamiltonian.validb ⟨[1], [.tensor [.pauliX 0, .hermitian matX [1]]]⟩ = true
    ∧ (∃ h', Hamiltonian.map_wires ⟨[1], [.tensor [.pauliX 0, .hermitian matX [1]]]⟩
        (.dict [(0, 7)]) = .ok h' ∧ h'.coeffs = [1]) := by
  refine ⟨by decide, ?_⟩
  obtain ⟨⟨h', hok, hc, -, -⟩, -⟩ :=
    map_wires_spec ⟨[1], [.tensor [.pauliX 0, .hermitian matX [1]]]⟩ [(0, 7)] (by decide)
  exact ⟨h', hok, hc⟩

/-- C8: `cost_layer` raises `ValueError` on every non-Hamiltonian
argument and on every Hamiltonian having a factor named other than
`PauliZ` or `Identity`, and returns a callable (successfully) on every
Hamiltonian whose factors are all `PauliZ` or `Identity`. -/
theorem cost_layer_spec :
    (∀ tag, ∃ e, cost_layer (.notHam tag) = .error e ∧ isValueError e = true)
    ∧ (∀ h : Hamiltonian,
        (cost_layer (.ham h) = .ok () ↔
          ∀ t ∈ h.ops, ∀ b ∈ t.factors, b.name = "PauliZ" ∨ b.name = "Identity"))
    ∧ (∀ h : Hamiltonian,
        ((∃ e, cost_layer (.ham h) = .error e ∧ isValueError e = true) ↔
          ∃ t ∈ h.ops, ∃ b ∈ t.factors, b.name ≠ "PauliZ" ∧ b.name ≠ "Identity")) := by
  have hdiag : ∀ h : Hamiltonian, _diagonal_terms h = true ↔
      ∀ t ∈ h.ops, ∀ b ∈ t.factors, b.name = "PauliZ" ∨ b.name = "Identity" := by
    intro h
    simp [_diagonal_terms, List.all_eq_true]
  have hbad : ∀ h : Hamiltonian, _diagonal_terms h = false →
      ∃ t ∈ h.ops, ∃ b ∈ t.factors, b.name ≠ "PauliZ" ∧ b.name ≠ "Identity" := by
    intro h hd
    have hne : ¬ ∀ t ∈ h.ops, ∀ b ∈ t.factors, b.name = "PauliZ" ∨ b.name = "Identity" := by
      intro hall
      have := (hdiag h).2 hall
      simp [hd] at this
    push_neg at hne
    obtain ⟨t, ht, b, hb, hzi⟩ := hne
    exact ⟨t, ht, b, hb, hzi⟩
  refine ⟨fun tag => ⟨_, rfl, isValueError_append _ tag (by decide)⟩, ?_, ?_⟩
  · intro h
    cases hd : _diagonal_terms h with
    | true =>
      constructor
      · intro _
        exact (hdiag h).1 hd
      · intro _
        simp [cost_layer, hd]
    | false =>
      constructor
      · intro hok
        exact absurd hok (by simp [cost_layer, hd])
      · intro hall
        have := (hdiag h).2 hall
        simp [hd] at this
  · intro h
    cases hd : _diagonal_terms h with
    | true =>
      have hall := (hdiag h).1 hd
      constructor
      · rintro ⟨e, he, -⟩
        exact absurd he (by simp [cost_layer, hd])
      · rintro ⟨t, ht, b, hb, hz, hi⟩
        exact absurd (hall t ht b hb) (by simp [hz, hi])
    | false =>
      constructor
      · intro _
        exact hbad h hd
      · intro _
        refine ⟨"ValueError: hamiltonian must be written only in terms of PauliZ and Identity gates",
          ?_, by decide⟩
        simp [cost_layer, hd]

/-- Witness for C8 projecting the raising case at a concrete argument. -/
theorem cost_layer_spec_witness :
    cost_layer (.ham ⟨[1, 1], [.base (.pauliZ 0), .base (.pauliZ 1)]⟩) = .ok () := by
  exact (cost_layer_spec.2.1 _).2 (by decide)

/-- C9: `map_wires` and `decompose` are pure transforms: the receiver's
coefficient and operator lists are unchanged by the call (the
state-threaded embeddings return the receiver as it was), and every
successful result is produced by a fresh `Hamiltonian` constructor
call. -/
theorem transforms_pure :
    ∀ (h : Hamiltonian) (wm : WireMapArg),
      (h.map_wiresS wm).1 = h ∧ h.decomposeS.1 = h
      ∧ (∀ h', (h.map_wiresS wm).2 = .ok h' → ∃ c o, mkHamiltonian c o = .ok h')
      ∧ (∀ h', h.decomposeS.2 = .ok h' → ∃ c o, mkHamiltonian c o = .ok h') := by
  intro h wm
  refine ⟨rfl, rfl, ?_, ?_⟩
  · intro h' hok
    cases wm with
    | notDict tag => exact absurd hok (by simp [Hamiltonian.map_wiresS, Hamiltonian.map_wires])
    | dict entries => exact ⟨_, _, hok⟩
  · intro h' hok
    simp only [Hamiltonian.decomposeS] at hok
    unfold Hamiltonian.decompose at hok
    cases hbuild : decomposeBuild h with
    | error e => rw [hbuild] at hok; exact absurd hok (by simp [Except.bind])
    | ok ts =>
      rw [hbuild] at hok
      exact ⟨_, _, hok⟩

/-- Witness for C9 at a concrete receiver and wire map. -/
theorem transforms_pure_witness :
    (Hamiltonian.map_wiresS ⟨[1], [.base (.pauliX 0)]⟩ (.dict [(0, 5)])).1 =
      ⟨[1], [.base (.pauliX 0)]⟩ :=
  (transforms_pure ⟨[1], [.base (.pauliX 0)]⟩ (.dict [(0, 5)])).1

/-- C4 (code defect): `decompose` on a Hamiltonian whose single term is a
bare `Hermitian` observable raises `IndexError` (`b[1]` on a one-entry
product tuple, `vqe.py` line 200) instead of returning the pure-Pauli
expansion; and on a `Hermitian (x) PauliX` term it returns a Hamiltonian
that still contains the `Hermitian` factor (`term.obs[i]` with the outer
loop index `i` on line 195, where the factor index `j` was intended). -/
theorem decompose_code_bug :
    Hamiltonian.decompose ⟨[1], [.base (.hermitian matX [0])]⟩ =
      .error "IndexError: tuple index out of range"
    ∧ Hamiltonian.decompose ⟨[1], [.tensor [.hermitian matX [0], .pauliX 1]]⟩ =
      .ok ⟨[1], [.tensor [.pauliX 0, .hermitian matX [0]]]⟩ := by
  exact ⟨by decide, by decide⟩

/-- C6 (code defect): on every tape whose single measurement is the
expectation of a Hamiltonian — exactly the shape the claim says succeeds
— `hamiltonian_expval` raises `AttributeError` (the `Hamiltonian` class
has no `simplify` method, and the following source line references the
undefined name `H`); and on a tape with no measurements it raises
`IndexError` rather than the claimed `ValueError`. -/
theorem hamiltonian_expval_code_bug :
    (∀ (tape : QuantumTape) (h : Hamiltonian),
      tape.measurements = [.expvalH h] →
      hamiltonian_expval tape =
        .error "AttributeError: Hamiltonian object has no attribute simplify")
    ∧ hamiltonian_expval ⟨[]⟩ = .error "IndexError: list index out of range" := by
  constructor
  · intro tape h hm
    simp [hamiltonian_expval, hm, Measurement.isHam]
  · rfl

/-- Witness for C6 at the Hamiltonian expectation tape of the
repository's own transform tests. -/
theorem hamiltonian_expval_code_bug_witness :
    hamiltonian_expval ⟨[.expvalH ⟨[K.ofRat (3/2)], [.tensor [.pauliZ 0, .pauliZ 1]]⟩]⟩ =
      .error "AttributeError: Hamiltonian object has no attribute simplify" :=
  hamiltonian_expval_code_bug.1 _ ⟨[K.ofRat (3/2)], [.tensor [.pauliZ 0, .pauliZ 1]]⟩ rfl

/-- C10: whenever the reward set of `edge_driver` minus the state `01`
has exactly one element — as for the `["10", "01"]` reward that `maxcut`
passes — the `reward` variable remains a Python list, every comparison
against the strings `00`, `10` and `11` is false, and the returned
Hamiltonian has empty coefficient and operator lists; consequently the
cost Hamiltonian of `maxcut` has zero terms for every graph. -/
theorem edge_driver_empty :
    (∀ (edges : List (ℕ × ℕ)) (reward : List String),
      (dedupFirst (reward.filter fun s => s != "01")).length = 1 →
      edge_driver (.graph edges) reward = .ok ⟨[], []⟩)
    ∧ ∀ edges : List (ℕ × ℕ), maxcut_cost edges = .ok ⟨[], []⟩ := by
  have hmk : mkHamiltonianO [] [] = .ok (⟨[], []⟩ : Hamiltonian) := rfl
  constructor
  · intro edges reward h1
    simp [edge_driver, h1, hmk]
  · intro edges
    have hd2 : dedupFirst ["10"] = ["10"] := rfl
    simp [maxcut_cost, edge_driver, hd2, hmk]

/-- Witness for C10 at the concrete `maxcut` reward list and a one-edge
graph. -/
theorem edge_driver_empty_witness :
    edge_driver (.graph [(0, 1)]) ["10", "01"] = .ok ⟨[], []⟩ :=
  edge_driver_empty.1 [(0, 1)] ["10", "01"] (by decide)

/-- Whether the factor is one the `pauli` dictionary of
`ApproxTimeEvolution` accepts. -/
def isPauliName (b : BaseObs) : Bool :=
  b.name == "PauliX" || b.name == "PauliY" || b.name == "PauliZ" || b.name == "Identity"

/-- The claim-side Pauli-word letter spelling a factor's operator name. -/
def letterOf (b : BaseObs) : Char :=
  match b with
  | .pauliX _ => 'X'
  | .pauliY _ => 'Y'
  | .pauliZ _ => 'Z'
  | .identity _ => 'I'
  | .hadamard _ => 'H'
  | .hermitian _ _ => '?'

/-- The claim-side description of the collected gate triples: one per
Hamiltonian term not composed solely of Identity factors, in term order,
with rotation angle `(-2 * time * c) / n`, the word spelling the factor
names, and the term's wires. -/
def collectSpec (coeffs : List K) (ops : List Obs) (time : ℚ) (n : ℤ) :
    List (K × List Char × List ℕ) :=
  (coeffs.zip ops).filterMap fun p =>
    if p.2.factors.all fun b => b.name == "Identity" then none
    else some ((K.ofRat (-2 * time) * p.1).divInt n, p.2.factors.map letterOf, p.2.wires)

/-- The claim-side gate of a collected triple: the triple's angle and
word, acting on the wires-argument entries indexed by the triple's term
wires. -/
def gateSpec (wires : List ℕ) (trip : K × List Char × List ℕ) : PauliRotGate :=
  ⟨trip.1, trip.2.1, trip.2.2.map fun k => wires.getD k 0⟩

lemma pauliLetter_ok {b : BaseObs} (hb : isPauliName b = true) :
    pauliLetter b.name = .ok (letterOf b) := by
  cases b <;> first | rfl | simp [isPauliName, BaseObs.name] at hb

lemma wordOfFactors_ok : ∀ {l : List BaseObs}, l.all isPauliName = true →
    wordOfFactors l = .ok (l.map letterOf) := by
  intro l
  induction l with
  | nil => intro _; rfl
  | cons b rest ih =>
    intro hl
    simp only [List.all_cons, Bool.and_eq_true] at hl
    simp [wordOfFactors, pauliLetter_ok hl.1, ih hl.2, Except.bind, Except.map]

lemma filter_length_eq_iff {α : Type} (p : α → Bool) (l : List α) :
    ((l.filter p).length = l.length) ↔ l.all p = true := by
  induction l with
  | nil => simp
  | cons a l ih =>
    cases ha : p a with
    | true => simpa [List.filter_cons, ha] using ih
    | false =>
      have hfeq : List.filter p (a :: l) = List.filter p l := by
        simp [List.filter_cons, ha]
      rw [hfeq, List.all_cons, ha]
      simp only [Bool.false_and, List.length_cons, Bool.false_eq_true, iff_false]
      have := List.length_filter_le p l
      omega

lemma letterI_eq (b : BaseObs) : (letterOf b == 'I') = (b.name == "Identity") := by
  cases b <;> rfl

lemma word_allI_iff (l : List BaseObs) :
    (((l.map letterOf).filter fun ch => ch == 'I').length = (l.map letterOf).length) ↔
      (l.all fun b => b.name == "Identity") = true := by
  rw [filter_length_eq_iff]
  induction l with
  | nil => rfl
  | cons b rest ih =>
    simp only [List.map_cons, List.all_cons, Bool.and_eq_true, letterI_eq]
    exact and_congr_right fun _ => ih

lemma collectSpec_cons (c : K) (cs : List K) (t : Obs) (rest : List Obs) (time : ℚ) (n : ℤ) :
    collectSpec (c :: cs) (t :: rest) time n =
      if (t.factors.all fun b => b.name == "Identity") = true then
        collectSpec cs rest time n
      else
        ((K.ofRat (-2 * time) * c).divInt n, t.factors.map letterOf, t.wires) ::
          collectSpec cs rest time n := by
  show List.filterMap _ ((c, t) :: cs.zip rest) = _
  rw [List.filterMap_cons]
  by_cases hid : (t.factors.all fun b => b.name == "Identity") = true <;>
    simp [collectSpec, hid]

lemma ateCollect_ok (time : ℚ) (n : ℤ) (hn : ¬ n = 0) :
    ∀ (ops : List Obs) (pre coeffs : List K),
      coeffs.length = ops.length →
      (∀ t ∈ ops, t.factors.all isPauliName = true) →
      ateCollect (pre ++ coeffs) time n pre.length ops = .ok (collectSpec coeffs ops time n) := by
  intro ops
  induction ops with
  | nil =>
    intro pre coeffs hlen _
    rw [List.eq_nil_of_length_eq_zero hlen]
    rfl
  | cons t rest ih =>
    intro pre coeffs hlen hp
    cases coeffs with
    | nil => simp at hlen
    | cons c cs =>
      have hget : (pre ++ c :: cs).get? pre.length = some c := by
        rw [List.get?_append_right (le_refl _)]
        simp
      have hword : termWord t = .ok (t.factors.map letterOf) :=
        wordOfFactors_ok (hp t (by simp))
      have hrec : ateCollect (pre ++ c :: cs) time n (pre.length + 1) rest =
          .ok (collectSpec cs rest time n) := by
        have hsplit : pre ++ c :: cs = (pre ++ [c]) ++ cs := by simp
        have hlen' : (pre ++ [c]).length = pre.length + 1 := by simp
        rw [hsplit, ← hlen']
        exact ih (pre ++ [c]) cs (by simpa using hlen) fun o ho => hp o (by simp [ho])
      have hstep : ateCollect (pre ++ c :: cs) time n pre.length (t :: rest) =
          if ((t.factors.map letterOf).filter fun ch => ch == 'I').length ≠
              (t.factors.map letterOf).length then
            .ok (((K.ofRat (-2 * time) * c).divInt n, t.factors.map letterOf, t.wires) ::
              collectSpec cs rest time n)
          else
            .ok (collectSpec cs rest time n) := by
        conv_lhs => rw [ateCollect, hget]
        show (if n = 0 then (Except.error "ZeroDivisionError: division by zero" : Except String _)
          else (termWord t).bind fun word =>
            (ateCollect (pre ++ c :: cs) time n (pre.length + 1) rest).map fun tail =>
              if (word.filter fun ch => ch == 'I').length ≠ word.length then
                ((K.ofRat (-2 * time) * c).divInt n, word, t.wires) :: tail
              else tail) = _
        rw [if_neg hn, hword, hrec]
        simp only [Except.bind, Except.map]
        split <;> rfl
      rw [hstep, collectSpec_cons]
      by_cases hid : (t.factors.all fun b => b.name == "Identity") = true
      · rw [if_neg (not_ne_iff.mpr ((word_allI_iff t.factors).2 hid)), if_pos hid]
      · have hcond : ((t.factors.map letterOf).filter fun ch => ch == 'I').length ≠
            (t.factors.map letterOf).length := by
          intro heq
          exact hid ((word_allI_iff t.factors).1 heq)
        rw [if_pos hcond, if_neg hid]

lemma lookupWires_ok (wires : List ℕ) : ∀ (ks : List ℕ), (∀ k ∈ ks, k < wires.length) →
    lookupWires wires ks = .ok (ks.map fun k => wires.getD k 0) := by
  intro ks
  induction ks with
  | nil => intro _; rfl
  | cons k rest ih =>
    intro hk
    have hklt : k < wires.length := hk k (by simp)
    have hsome : wires[k]? = some (wires.get ⟨k, hklt⟩) := by
      rw [← List.get?_eq_getElem?]
      exact List.get?_eq_get hklt
    have hgetD : wires[k]?.getD 0 = wires.get ⟨k, hklt⟩ := by
      rw [hsome]
      rfl
    simp [lookupWires, hsome, hgetD, ih fun x hx => hk x (by simp [hx]), Except.map]

lemma ateEmitSeq_ok (wires : List ℕ) : ∀ (trips : List (K × List Char × List ℕ)),
    (∀ tr ∈ trips, ∀ k ∈ tr.2.2, k < wires.length) →
    ateEmitSeq wires trips = .ok (trips.map (gateSpec wires)) := by
  intro trips
  induction trips with
  | nil => intro _; rfl
  | cons tr rest ih =>
    intro htr
    have h1 : lookupWires wires tr.2.2 = .ok (tr.2.2.map fun k => wires.getD k 0) :=
      lookupWires_ok wires tr.2.2 (htr tr (by simp))
    simp [ateEmitSeq, ateGate, h1, ih fun x hx => htr x (by simp [hx]), Except.bind,
      Except.map, gateSpec]

lemma ateEmitRep_ok (wires : List ℕ) (trips : List (K × List Char × List ℕ))
    (htr : ∀ tr ∈ trips, ∀ k ∈ tr.2.2, k < wires.length) :
    ∀ m : ℕ, ateEmitRep wires trips m =
      .ok (List.flatten (List.replicate m (trips.map (gateSpec wires)))) := by
  intro m
  induction m with
  | zero => rfl
  | succ m ih =>
    simp [ateEmitRep, ateEmitSeq_ok wires trips htr, ih, Except.bind, Except.map,
      List.replicate_succ]

lemma collectSpec_wires {coeffs : List K} {ops : List Obs} {time : ℚ} {n : ℤ} {wires : List ℕ}
    (hw : ∀ o ∈ ops, ∀ w ∈ o.wires, w < wires.length) :
    ∀ tr ∈ collectSpec coeffs ops time n, ∀ k ∈ tr.2.2, k < wires.length := by
  intro tr htr k hk
  simp only [collectSpec, List.mem_filterMap] at htr
  obtain ⟨p, hp', heq⟩ := htr
  split at heq
  · exact absurd heq (by simp)
  · cases heq
    exact hw p.2 (List.of_mem_zip hp').2 k hk

/-- Shared success lemma for `ApproxTimeEvolution` on well-formed
all-Pauli input: the queued gates are `n` repetitions of the collected
sequence. -/
lemma ate_good (h : Hamiltonian) (t : ℚ) (n : ℤ) (wires : List ℕ)
    (hv : h.validb = true)
    (hp : ∀ o ∈ h.ops, o.factors.all isPauliName = true)
    (hw : ∀ o ∈ h.ops, ∀ w ∈ o.wires, w < wires.length)
    (hn : ¬ n = 0) :
    approx_time_evolution (.ham h) (.float t) (.int n) wires =
      .ok (List.flatten (List.replicate n.toNat
        ((collectSpec h.coeffs h.ops t n).map (gateSpec wires)))) := by
  obtain ⟨hlen, -⟩ := validb_parts hv
  have hcol : ateCollect h.coeffs t n 0 h.ops = .ok (collectSpec h.coeffs h.ops t n) := by
    have := ateCollect_ok t n hn h.ops [] h.coeffs hlen hp
    simpa using this
  show (ateCollect h.coeffs (TimeArg.val (.float t)) n 0 h.ops).bind
      (fun trips => ateEmit wires trips n) = _
  rw [show TimeArg.val (.float t) = t from rfl, hcol]
  show ateEmit wires (collectSpec h.coeffs h.ops t n) n = _
  unfold ateEmit
  exact ateEmitRep_ok wires _ (collectSpec_wires hw) n.toNat

/-- C2: for every well-formed Hamiltonian whose terms are all products of
Pauli/Identity operators, every time and every positive step count `n`
(with each term's wires indexing into the wires argument),
`ApproxTimeEvolution` queues exactly `n` consecutive repetitions of one
fixed sequence holding one `PauliRot` gate per term that is not composed
solely of Identity operators, in term order, with rotation angle
`(-2 * t * c_j) / n`, Pauli word spelling the term's operator names, and
wires the wires-argument entries indexed by the term's wires. -/
theorem approx_time_evolution_spec :
    ∀ (h : Hamiltonian) (t : ℚ) (n : ℤ) (wires : List ℕ),
      h.validb = true →
      (∀ o ∈ h.ops, o.factors.all isPauliName = true) →
      (∀ o ∈ h.ops, ∀ w ∈ o.wires, w < wires.length) →
      0 < n →
      approx_time_evolution (.ham h) (.float t) (.int n) wires =
        .ok (List.flatten (List.replicate n.toNat
          ((h.coeffs.zip h.ops).filterMap fun p =>
            if p.2.factors.all fun b => b.name == "Identity" then none
            else some ⟨(K.ofRat (-2 * t) * p.1).divInt n,
                       p.2.factors.map letterOf,
                       p.2.wires.map fun w => wires.getD w 0⟩))) := by
  intro h t n wires hv hp hw hn
  rw [ate_good h t n wires hv hp hw (by omega)]
  have hfun : (fun p : K × Obs => Option.map (gateSpec wires)
      (if p.2.factors.all fun b => b.name == "Identity" then none
       else some ((K.ofRat (-2 * t) * p.1).divInt n, p.2.factors.map letterOf, p.2.wires))) =
      fun p : K × Obs =>
        if p.2.factors.all fun b => b.name == "Identity" then none
        else some (⟨(K.ofRat (-2 * t) * p.1).divInt n, p.2.factors.map letterOf,
          p.2.wires.map fun w => wires.getD w 0⟩ : PauliRotGate) := by
    funext p
    split <;> rfl
  rw [collectSpec, List.map_filterMap, hfun]

/-- Witness for C2 at a two-term Pauli Hamiltonian with two Trotter
steps on relabeled wires. -/
theorem approx_time_evolution_spec_witness :
    approx_time_evolution (.ham ⟨[1, 1], [.base (.pauliX 0), .base (.pauliX 1)]⟩)
      (.float 1) (.int 2) [5, 6] =
      .ok [⟨K.ofRat (-1), ['X'], [5]⟩, ⟨K.ofRat (-1), ['X'], [6]⟩,
           ⟨K.ofRat (-1), ['X'], [5]⟩, ⟨K.ofRat (-1), ['X'], [6]⟩] := by
  have h := approx_time_evolution_spec ⟨[1, 1], [.base (.pauliX 0), .base (.pauliX 1)]⟩ 1 2 [5, 6]
    (by decide) (by decide) (by decide) (by decide)
  rw [h]
  decide

/-- C7 counterexample: with a genuine one-term Pauli Hamiltonian, a float
time and an int `n` — inputs for which the claim says no error is raised
— the call raises `ZeroDivisionError` when `n = 0`, and `IndexError` when
a term wire exceeds the wires argument; neither is a `ValueError`. -/
theorem ate_validation_counterexample :
    approx_time_evolution (.ham ⟨[1], [.base (.pauliX 0)]⟩) (.float 1) (.int 0) [0] =
      .error "ZeroDivisionError: division by zero"
    ∧ approx_time_evolution (.ham ⟨[1], [.base (.pauliX 1)]⟩) (.float 1) (.int 1) [0] =
      .error "IndexError: list index out of range"
    ∧ isValueError "ZeroDivisionError: division by zero" = false
    ∧ isValueError "IndexError: list index out of range" = false :=
  ⟨by decide, by decide, by decide, by decide⟩

lemma pauliLetter_bad {b : BaseObs} (hb : isPauliName b = false) :
    ∃ e, pauliLetter b.name = .error e ∧ isValueError e = true := by
  cases b with
  | hadamard w => exact ⟨_, rfl, isValueError_append _ _ (by decide)⟩
  | hermitian m ws => exact ⟨_, rfl, isValueError_append _ _ (by decide)⟩
  | pauliX w => simp [isPauliName, BaseObs.name] at hb
  | pauliY w => simp [isPauliName, BaseObs.name] at hb
  | pauliZ w => simp [isPauliName, BaseObs.name] at hb
  | identity w => simp [isPauliName, BaseObs.name] at hb

lemma wordOfFactors_bad : ∀ (l : List BaseObs), (∃ b ∈ l, isPauliName b = false) →
    ∃ e, wordOfFactors l = .error e ∧ isValueError e = true := by
  intro l
  induction l with
  | nil =>
    rintro ⟨b, hb, -⟩
    simp at hb
  | cons b rest ih =>
    rintro ⟨b', hb', hbad⟩
    cases hbp : isPauliName b with
    | false =>
      obtain ⟨e, he, hve⟩ := pauliLetter_bad hbp
      exact ⟨e, by simp [wordOfFactors, he, Except.bind], hve⟩
    | true =>
      have hrest : ∃ x ∈ rest, isPauliName x = false := by
        rcases List.mem_cons.1 hb' with rfl | hr
        · rw [hbp] at hbad
          exact absurd hbad (by simp)
        · exact ⟨b', hr, hbad⟩
      obtain ⟨e, he, hve⟩ := ih hrest
      exact ⟨e, by simp [wordOfFactors, pauliLetter_ok hbp, he, Except.bind, Except.map], hve⟩

lemma ateCollect_cons_eq (coeffs : List K) (time : ℚ) (n : ℤ) (i : ℕ) (t : Obs)
    (rest : List Obs) (c : K) (hget : coeffs.get? i = some c) (hn : ¬ n = 0) :
    ateCollect coeffs time n i (t :: rest) =
      (termWord t).bind fun word =>
        (ateCollect coeffs time n (i + 1) rest).map fun tail =>
          if (word.filter fun ch => ch == 'I').length ≠ word.length then
            ((K.ofRat (-2 * time) * c).divInt n, word, t.wires) :: tail
          else tail := by
  conv_lhs => rw [ateCollect, hget]
  show (if n = 0 then (Except.error "ZeroDivisionError: division by zero" : Except String _)
    else (termWord t).bind fun word =>
      (ateCollect coeffs time n (i + 1) rest).map fun tail =>
        if (word.filter fun ch => ch == 'I').length ≠ word.length then
          ((K.ofRat (-2 * time) * c).divInt n, word, t.wires) :: tail
        else tail) = _
  rw [if_neg hn]

lemma ateCollect_bad (time : ℚ) (n : ℤ) (hn : ¬ n = 0) :
    ∀ (ops : List Obs) (pre coeffs : List K),
      coeffs.length = ops.length →
      (∃ o ∈ ops, ∃ b ∈ o.factors, isPauliName b = false) →
      ∃ e, ateCollect (pre ++ coeffs) time n pre.length ops = .error e ∧ isValueError e = true := by
  intro ops
  induction ops with
  | nil =>
    rintro pre coeffs _ ⟨o, ho, -⟩
    simp at ho
  | cons t rest ih =>
    rintro pre coeffs hlen ⟨o, ho, b, hb, hbad⟩
    cases coeffs with
    | nil => simp at hlen
    | cons c cs =>
      have hget : (pre ++ c :: cs).get? pre.length = some c := by
        rw [List.get?_append_right (le_refl _)]
        simp
      rw [ateCollect_cons_eq (pre ++ c :: cs) time n pre.length t rest c hget hn]
      by_cases hhead : ∃ x ∈ t.factors, isPauliName x = false
      · obtain ⟨e, he, hve⟩ := wordOfFactors_bad t.factors hhead
        exact ⟨e, by simp [termWord, he, Except.bind], hve⟩
      · have hpall : t.factors.all isPauliName = true := by
          rw [List.all_eq_true]
          intro x hx
          by_contra hcx
          exact hhead ⟨x, hx, by simpa using hcx⟩
        have hword : termWord t = .ok (t.factors.map letterOf) := wordOfFactors_ok hpall
        have hrest : ∃ o ∈ rest, ∃ b ∈ o.factors, isPauliName b = false := by
          rcases List.mem_cons.1 ho with rfl | hr
          · exact absurd ⟨b, hb, hbad⟩ hhead
          · exact ⟨o, hr, b, hb, hbad⟩
        have hlen' : cs.length = rest.length := by simpa using hlen
        obtain ⟨e, he, hve⟩ := by
          have := ih (pre ++ [c]) cs hlen' hrest
          rw [show (pre ++ [c]) ++ cs = pre ++ c :: cs by simp,
            show (pre ++ [c]).length = pre.length + 1 by simp] at this
          exact this
        exact ⟨e, by simp [hword, he, Except.bind, Except.map], hve⟩

/-- C7 (amended): `ApproxTimeEvolution` raises `ValueError` on a
non-Hamiltonian `hamiltonian`, a non-int `n`, a non-numeric `time`, and
on any well-formed nonzero-step call whose Hamiltonian has a factor other
than `PauliX`, `PauliY`, `PauliZ` or `Identity`; and it raises no error
when additionally `n` is positive and every term's wires index into the
wires argument (without those two extra conditions other exception types
can escape, as the counterexample shows). -/
theorem ate_validation_amended :
    (∀ (tag : String) (ta : TimeArg) (na : IntArg) (wires : List ℕ),
      raisesValueError (approx_time_evolution (.notHam tag) ta na wires))
    ∧ (∀ (h : Hamiltonian) (tag : String) (ta : TimeArg) (wires : List ℕ),
      raisesValueError (approx_time_evolution (.ham h) ta (.notInt tag) wires))
    ∧ (∀ (h : Hamiltonian) (tag : String) (n : ℤ) (wires : List ℕ),
      raisesValueError (approx_time_evolution (.ham h) (.notNum tag) (.int n) wires))
    ∧ (∀ (h : Hamiltonian) (t : ℚ) (n : ℤ) (wires : List ℕ), h.validb = true → ¬ n = 0 →
        (∃ o ∈ h.ops, ∃ b ∈ o.factors, isPauliName b = false) →
        raisesValueError (approx_time_evolution (.ham h) (.float t) (.int n) wires))
    ∧ (∀ (h : Hamiltonian) (t : ℚ) (n : ℤ) (wires : List ℕ), h.validb = true →
        (∀ o ∈ h.ops, o.factors.all isPauliName = true) →
        (∀ o ∈ h.ops, ∀ w ∈ o.wires, w < wires.length) →
        0 < n →
        ∃ gates, approx_time_evolution (.ham h) (.float t) (.int n) wires = .ok gates) := by
  refine ⟨?_, ?_, ?_, ?_, ?_⟩
  · intro tag ta na wires
    exact ⟨_, rfl, isValueError_append _ tag (by decide)⟩
  · intro h tag ta wires
    exact ⟨_, rfl, isValueError_append _ tag (by decide)⟩
  · intro h tag n wires
    exact ⟨_, rfl, isValueError_append _ tag (by decide)⟩
  · intro h t n wires hv hn hbad
    obtain ⟨hlen, -⟩ := validb_parts hv
    obtain ⟨e, he, hve⟩ := by
      have := ateCollect_bad t n hn h.ops [] h.coeffs hlen hbad
      simpa using this
    refine ⟨e, ?_, hve⟩
    show (ateCollect h.coeffs (TimeArg.val (.float t)) n 0 h.ops).bind
      (fun trips => ateEmit wires trips n) = _
    rw [show TimeArg.val (.float t) = t from rfl, he]
    rfl
  · intro h t n wires hv hp hw hn
    exact ⟨_, ate_good h t n wires hv hp hw (by omega)⟩

/-- Witness for the amended C7: on a well-formed one-term PauliX
Hamiltonian with `n = 1` and a covering wires list, no error is raised. -/
theorem ate_validation_amended_witness :
    Hamiltonian.validb ⟨[1], [.base (.pauliX 0)]⟩ = true
    ∧ ∃ gates, approx_time_evolution (.ham ⟨[1], [.base (.pauliX 0)]⟩)
        (.float 1) (.int 1) [0] = .ok gates :=
  ⟨by decide, ate_validation_amended.2.2.2.2 ⟨[1], [.base (.pauliX 0)]⟩ 1 1 [0]
    (by decide) (by decide) (by decide) (by decide)⟩

/-- The claim-side non-diagonal entry of a coefficient/term pair: prune
the term; when its matrix has a nonzero off-diagonal entry, keep its
matrix/wires key with the coefficient. -/
def nonDiagEntry (p : K × Obs) : Option (DiagKey × K) :=
  if offDiagNonzero (pruneIfTensor p.2).matrix then
    some (((pruneIfTensor p.2).matrix, (pruneIfTensor p.2).wires), p.1)
  else
    none

/-- The claim-side list of non-diagonal pruned terms of a Hamiltonian,
paired with their coefficients, in term order. -/
def nonDiagPairs (h : Hamiltonian) : List (DiagKey × K) :=
  (h.coeffs.zip h.ops).filterMap nonDiagEntry

/-- The total coefficient of a non-diagonal term: the sum of the
coefficients of all equal (same matrix and wires) non-diagonal terms. -/
def keyTotal (ps : List (DiagKey × K)) (k : DiagKey) : K :=
  ksum ((ps.filter fun q => q.1 == k).map Prod.snd)

/-- Claim-side diagonality test: every non-diagonal term has total
coefficient zero (vacuously true with no non-diagonal terms). -/
def groupedAllZero (ps : List (DiagKey × K)) : Bool :=
  ps.all fun p => keyTotal ps p.1 == 0

lemma wrap_factors (t : Obs) : (tensorWrapIfSingle t).factors = t.factors := by
  unfold tensorWrapIfSingle
  split <;> rfl

lemma prune_wrap (t : Obs) : pruneIfTensor (Obs.tensor t.factors) = pruneIfTensor t := by
  cases t with
  | tensor l => rfl
  | base b => cases b <;> rfl

lemma decomposeBuildAux_noherm (h : Hamiltonian) :
    ∀ (ops : List Obs) (pre cs : List K), h.coeffs = pre ++ cs →
      cs.length = ops.length →
      (∀ o ∈ ops, ∀ b ∈ o.factors, b.name ≠ "Hermitian") →
      decomposeBuildAux h pre.length ops =
        .ok ((cs.zip ops).map fun p => [(p.1, tensorWrapIfSingle p.2)]) := by
  intro ops
  induction ops with
  | nil =>
    intro pre cs _ hlen _
    rw [List.eq_nil_of_length_eq_zero hlen]
    rfl
  | cons t rest ih =>
    intro pre cs hco hlen hh
    cases cs with
    | nil => simp at hlen
    | cons c cs' =>
      have hget : h.coeffs.get? pre.length = some c := by
        rw [hco, List.get?_append_right (le_refl _)]
        simp
      have hname : "Hermitian" ∉ (tensorWrapIfSingle t).factors.map BaseObs.name := by
        rw [wrap_factors]
        simp only [List.mem_map, not_exists, not_and]
        intro b hb
        exact hh t (by simp) b hb
      have hterm : decomposeTerm h pre.length t = .ok [[(c, tensorWrapIfSingle t)]] := by
        unfold decomposeTerm
        rw [if_neg hname, hget]
      have hrec : decomposeBuildAux h (pre.length + 1) rest =
          .ok ((cs'.zip rest).map fun p => [(p.1, tensorWrapIfSingle p.2)]) := by
        have hco' : h.coeffs = (pre ++ [c]) ++ cs' := by
          rw [hco]
          simp
        have := ih (pre ++ [c]) cs' hco' (by simpa using hlen)
          fun o ho => hh o (by simp [ho])
        rw [show (pre ++ [c]).length = pre.length + 1 by simp] at this
        exact this
      show (decomposeTerm h pre.length t).bind (fun head =>
        (decomposeBuildAux h (pre.length + 1) rest).bind fun tail => pure (head ++ tail)) = _
      rw [hterm, hrec]
      rfl

lemma decompose_noherm (h : Hamiltonian) (hv : h.validb = true)
    (hherm : ∀ o ∈ h.ops, ∀ b ∈ o.factors, b.name ≠ "Hermitian") :
    h.decompose = .ok ⟨h.coeffs, h.ops.map fun t => Obs.tensor t.factors⟩ := by
  obtain ⟨hlen, hre⟩ := validb_parts hv
  have hbuild : decomposeBuild h =
      .ok ((h.coeffs.zip h.ops).map fun p => [(p.1, tensorWrapIfSingle p.2)]) := by
    have := decomposeBuildAux_noherm h h.ops [] h.coeffs (by simp) hlen hherm
    simpa using this
  unfold Hamiltonian.decompose
  rw [hbuild]
  show mkHamiltonianO _ _ = _
  have hco : ((h.coeffs.zip h.ops).map fun p => [(p.1, tensorWrapIfSingle p.2)]).map
      finalizeCoeff = h.coeffs := by
    rw [List.map_map]
    have hfn : (finalizeCoeff ∘ fun p : K × Obs => [(p.1, tensorWrapIfSingle p.2)]) =
        Prod.fst := by
      funext p
      show (1 : K) * p.1 = p.1
      exact K.one_mul p.1
    rw [hfn]
    exact List.map_fst_zip _ _ (le_of_eq hlen)
  have hop : ((h.coeffs.zip h.ops).map fun p => [(p.1, tensorWrapIfSingle p.2)]).map
      finalizeObs = h.ops.map fun t => Obs.tensor t.factors := by
    rw [List.map_map]
    have hfn : (finalizeObs ∘ fun p : K × Obs => [(p.1, tensorWrapIfSingle p.2)]) =
        (fun t => Obs.tensor t.factors) ∘ Prod.snd := by
      funext p
      show tensorFlat [tensorWrapIfSingle p.2] = Obs.tensor p.2.factors
      unfold tensorFlat
      rw [show ([tensorWrapIfSingle p.2].flatMap Obs.factors) =
        (tensorWrapIfSingle p.2).factors ++ [] from rfl, List.append_nil, wrap_factors]
    rw [hfn, ← List.map_map]
    rw [List.map_snd_zip _ _ (le_of_eq hlen.symm)]
  rw [hco, hop]
  exact mk_ok_of_good _ _ (by simp [hlen]) hre

lemma diagLoop_eq : ∀ (ops : List Obs) (pre cs : List K) (st : List K × List DiagKey),
    cs.length = ops.length →
    diagLoop (pre ++ cs) pre.length (ops.map fun t => Obs.tensor t.factors) st =
      .ok (((cs.zip ops).filterMap nonDiagEntry).foldl
        (fun acc p => diagInsert acc p.1 p.2) st) := by
  intro ops
  induction ops with
  | nil =>
    intro pre cs st hlen
    rw [List.eq_nil_of_length_eq_zero hlen]
    rfl
  | cons t rest ih =>
    intro pre cs st hlen
    cases cs with
    | nil => simp at hlen
    | cons c cs' =>
      have hget : (pre ++ c :: cs').get? pre.length = some c := by
        rw [List.get?_append_right (le_refl _)]
        simp
      show (diagStep (pre ++ c :: cs') st (pre.length, Obs.tensor t.factors)).bind
        (fun st' => diagLoop (pre ++ c :: cs') (pre.length + 1)
          (rest.map fun t => Obs.tensor t.factors) st') = _
      have hstep : diagStep (pre ++ c :: cs') st (pre.length, Obs.tensor t.factors) =
          .ok (if offDiagNonzero (pruneIfTensor t).matrix then
            diagInsert st ((pruneIfTensor t).matrix, (pruneIfTensor t).wires) c
          else st) := by
        unfold diagStep
        rw [show pruneIfTensor ((pre.length, Obs.tensor t.factors).2) = pruneIfTensor t
          from prune_wrap t]
        by_cases hod : offDiagNonzero (pruneIfTensor t).matrix = true
        · rw [if_pos hod, if_pos hod]
          show (match (pre ++ c :: cs').get? pre.length with
            | none => (Except.error "IndexError: list index out of range" :
                Except String (List K × List DiagKey))
            | some c => .ok (diagInsert st ((pruneIfTensor t).matrix,
                (pruneIfTensor t).wires) c)) = _
          rw [hget]
        · rw [if_neg hod, if_neg hod]
      rw [hstep]
      have hr := ih (pre ++ [c]) cs'
        (if offDiagNonzero (pruneIfTensor t).matrix then
          diagInsert st ((pruneIfTensor t).matrix, (pruneIfTensor t).wires) c
        else st) (by simpa using hlen)
      rw [show (pre ++ [c]) ++ cs' = pre ++ c :: cs' by simp,
        show (pre ++ [c]).length = pre.length + 1 by simp] at hr
      show diagLoop (pre ++ c :: cs') (pre.length + 1)
        (rest.map fun t => Obs.tensor t.factors) _ = _
      rw [hr]
      congr 1
      rw [show ((c :: cs').zip (t :: rest)) = (c, t) :: cs'.zip rest from rfl,
        List.filterMap_cons]
      by_cases hod : offDiagNonzero (pruneIfTensor t).matrix = true
      · rw [if_pos hod,
          show nonDiagEntry (c, t) =
            some (((pruneIfTensor t).matrix, (pruneIfTensor t).wires), c) by
              unfold nonDiagEntry
              rw [if_pos hod]]
        rfl
      · rw [if_neg hod,
          show nonDiagEntry (c, t) = none by
            unfold nonDiagEntry
            rw [if_neg hod]]

lemma foldl_dedup_mem {α : Type} [DecidableEq α] :
    ∀ (l acc : List α) (x : α),
      (x ∈ l.foldl (fun acc y => if y ∈ acc then acc else acc ++ [y]) acc) ↔
        x ∈ acc ∨ x ∈ l := by
  intro l
  induction l with
  | nil =>
    intro acc x
    simp
  | cons a l ih =>
    intro acc x
    show x ∈ l.foldl _ (if a ∈ acc then acc else acc ++ [a]) ↔ _
    rw [ih]
    by_cases ha : a ∈ acc
    · rw [if_pos ha]
      simp only [List.mem_cons]
      constructor
      · rintro (h | h)
        · exact Or.inl h
        · exact Or.inr (Or.inr h)
      · rintro (h | rfl | h)
        · exact Or.inl h
        · exact Or.inl ha
        · exact Or.inr h
    · rw [if_neg ha]
      simp only [List.mem_append, List.mem_singleton, List.mem_cons]
      tauto

lemma mem_dedupFirst {α : Type} [DecidableEq α] {x : α} {l : List α} :
    x ∈ dedupFirst l ↔ x ∈ l := by
  unfold dedupFirst
  rw [foldl_dedup_mem]
  simp

lemma foldl_dedup_nodup {α : Type} [DecidableEq α] :
    ∀ (l acc : List α), acc.Nodup →
      (l.foldl (fun acc y => if y ∈ acc then acc else acc ++ [y]) acc).Nodup := by
  intro l
  induction l with
  | nil => intro acc h; exact h
  | cons a l ih =>
    intro acc hacc
    show (l.foldl _ (if a ∈ acc then acc else acc ++ [a])).Nodup
    by_cases ha : a ∈ acc
    · rw [if_pos ha]
      exact ih acc hacc
    · rw [if_neg ha]
      refine ih _ ?_
      rw [List.nodup_append]
      exact ⟨hacc, List.nodup_singleton a, by simpa [List.disjoint_singleton] using ha⟩

lemma dedupFirst_nodup {α : Type} [DecidableEq α] (l : List α) : (dedupFirst l).Nodup :=
  foldl_dedup_nodup l [] List.nodup_nil

lemma dedupFirst_snoc {α : Type} [DecidableEq α] (l : List α) (x : α) :
    dedupFirst (l ++ [x]) =
      if x ∈ dedupFirst l then dedupFirst l else dedupFirst l ++ [x] := by
  unfold dedupFirst
  rw [List.foldl_append]
  rfl

lemma listIndexOf_none_iff : ∀ (l : List DiagKey) (key : DiagKey),
    listIndexOf l key = none ↔ key ∉ l := by
  intro l
  induction l with
  | nil => intro key; simp [listIndexOf]
  | cons k rest ih =>
    intro key
    by_cases hk : k = key
    · subst hk
      simp [listIndexOf]
    · have hbeq : (k == key) = false := by simpa using hk
      simp only [listIndexOf, hbeq, Bool.false_eq_true, if_false, Option.map_eq_none',
        List.mem_cons, ih]
      constructor
      · intro h hc
        rcases hc with rfl | hc
        · exact hk rfl
        · exact h hc
      · intro h hc
        exact h (Or.inr hc)

lemma listIndexOf_get : ∀ (l : List DiagKey) (key : DiagKey) (i : ℕ),
    listIndexOf l key = some i → l.get? i = some key := by
  intro l
  induction l with
  | nil => intro key i h; simp [listIndexOf] at h
  | cons k rest ih =>
    intro key i h
    by_cases hk : (k == key) = true
    · rw [listIndexOf, if_pos hk] at h
      cases h
      simpa using (beq_iff_eq.1 hk)
    · rw [listIndexOf, if_neg hk] at h
      rw [Option.map_eq_some'] at h
      obtain ⟨j, hj, rfl⟩ := h
      simpa using ih key j hj

lemma listIndexOf_some_of_mem {l : List DiagKey} {key : DiagKey} (h : key ∈ l) :
    ∃ i, listIndexOf l key = some i := by
  cases hidx : listIndexOf l key with
  | none => exact absurd h ((listIndexOf_none_iff l key).1 hidx)
  | some i => exact ⟨i, rfl⟩

lemma ksum_snoc (l : List K) (x : K) : ksum (l ++ [x]) = ksum l + x := by
  unfold ksum
  rw [List.foldl_append]
  rfl

lemma keyTotal_snoc (ps : List (DiagKey × K)) (p : DiagKey × K) (k : DiagKey) :
    keyTotal (ps ++ [p]) k =
      if p.1 = k then keyTotal ps k + p.2 else keyTotal ps k := by
  unfold keyTotal
  rw [List.filter_append]
  by_cases hp : p.1 = k
  · have hb : (p.1 == k) = true := by simpa using hp
    rw [if_pos hp,
      show List.filter (fun q => q.1 == k) [p] = [p] by simp [List.filter, hb],
      List.map_append]
    exact ksum_snoc _ _
  · have hb : (p.1 == k) = false := by simpa using hp
    rw [if_neg hp,
      show List.filter (fun q => q.1 == k) [p] = [] by simp [List.filter, hb],
      List.append_nil]

lemma keyTotal_of_notmem (ps : List (DiagKey × K)) (k : DiagKey)
    (h : k ∉ ps.map Prod.fst) : keyTotal ps k = 0 := by
  unfold keyTotal
  have hfe : ps.filter (fun q => q.1 == k) = [] := by
    rw [List.filter_eq_nil]
    intro q hq
    simp only [beq_iff_eq]
    intro heq
    exact h (List.mem_map.2 ⟨q, hq, heq⟩)
  rw [hfe]
  rfl

lemma map_set_total : ∀ (keys : List DiagKey) (idx : ℕ) (key : DiagKey) (c : K)
    (ps : List (DiagKey × K)), keys.Nodup → keys.get? idx = some key →
    (keys.map (keyTotal ps)).set idx ((keys.map (keyTotal ps)).getD idx 0 + c) =
      keys.map (keyTotal (ps ++ [(key, c)])) := by
  intro keys
  induction keys with
  | nil =>
    intro idx key c ps _ h
    simp at h
  | cons k rest ih =>
    intro idx key c ps hnd hget
    cases idx with
    | zero =>
      have hk : k = key := by simpa using hget
      subst hk
      show (keyTotal ps k + c) :: rest.map (keyTotal ps) =
        keyTotal (ps ++ [(k, c)]) k :: rest.map (keyTotal (ps ++ [(k, c)]))
      have hknotin : k ∉ rest := (List.nodup_cons.1 hnd).1
      congr 1
      · rw [keyTotal_snoc, if_pos rfl]
      · refine List.map_congr_left fun x hx => ?_
        rw [keyTotal_snoc, if_neg ?_]
        intro heq
        have hkx : k = x := heq
        refine hknotin ?_
        rw [hkx]
        exact hx
    | succ m =>
      have hget' : rest.get? m = some key := by simpa using hget
      have hkey_mem : key ∈ rest := by
        have := List.get?_mem hget'
        exact this
      have hk_ne : k ≠ key := by
        intro heq
        exact (List.nodup_cons.1 hnd).1 (heq ▸ hkey_mem)
      show keyTotal ps k :: (rest.map (keyTotal ps)).set m
          ((rest.map (keyTotal ps)).getD m 0 + c) =
        keyTotal (ps ++ [(key, c)]) k :: rest.map (keyTotal (ps ++ [(key, c)]))
      congr 1
      · rw [keyTotal_snoc, if_neg fun heq => hk_ne heq.symm]
      · exact ih m key c ps (List.nodup_cons.1 hnd).2 hget'

lemma accum_spec (ps : List (DiagKey × K)) :
    ps.foldl (fun acc p => diagInsert acc p.1 p.2) ([], []) =
      ((dedupFirst (ps.map Prod.fst)).map (keyTotal ps),
        dedupFirst (ps.map Prod.fst)) := by
  induction ps using List.reverseRecOn with
  | nil => rfl
  | append_singleton l p ih =>
    rw [List.foldl_append, ih, List.map_append,
      show List.map Prod.fst [p] = [p.1] from rfl, dedupFirst_snoc]
    show diagInsert _ p.1 p.2 = _
    by_cases hmem : p.1 ∈ dedupFirst (l.map Prod.fst)
    · rw [if_pos hmem]
      obtain ⟨idx, hidx⟩ := listIndexOf_some_of_mem hmem
      have hget := listIndexOf_get _ _ _ hidx
      unfold diagInsert
      rw [hidx]
      show (((dedupFirst (l.map Prod.fst)).map (keyTotal l)).set idx
          ((((dedupFirst (l.map Prod.fst)).map (keyTotal l))).getD idx 0 + p.2),
        dedupFirst (l.map Prod.fst)) = _
      congr 1
      rw [map_set_total (dedupFirst (l.map Prod.fst)) idx p.1 p.2 l
        (dedupFirst_nodup _) hget]
    · rw [if_neg hmem]
      have hnone : listIndexOf (dedupFirst (l.map Prod.fst)) p.1 = none :=
        (listIndexOf_none_iff _ _).2 hmem
      unfold diagInsert
      rw [hnone]
      show ((dedupFirst (l.map Prod.fst)).map (keyTotal l) ++ [p.2],
        dedupFirst (l.map Prod.fst) ++ [p.1]) = _
      have hnotl : p.1 ∉ l.map Prod.fst := fun hc => hmem (mem_dedupFirst.2 hc)
      congr 1
      rw [List.map_append]
      congr 1
      · refine List.map_congr_left fun x hx => ?_
        rw [keyTotal_snoc, if_neg ?_]
        intro heq
        exact hmem (heq ▸ hx)
      · show [p.2] = [keyTotal (l ++ [p]) p.1]
        rw [show l ++ [p] = l ++ [(p.1, p.2)] by rw [Prod.mk.eta], keyTotal_snoc, if_pos rfl,
          keyTotal_of_notmem l p.1 hnotl, K.zero_add]

lemma bool_eq_of_iff {a b : Bool} (h : a = true ↔ b = true) : a = b := by
  cases a <;> cases b <;> simp_all

lemma accumVals_allZero (ps : List (DiagKey × K)) :
    ((ps.foldl (fun acc p => diagInsert acc p.1 p.2) ([], [])).1.all fun c => c == 0) =
      groupedAllZero ps := by
  rw [accum_spec]
  apply bool_eq_of_iff
  rw [List.all_eq_true, groupedAllZero, List.all_eq_true]
  constructor
  · intro hall p hp
    exact hall (keyTotal ps p.1)
      (List.mem_map.2 ⟨p.1, mem_dedupFirst.2 (List.mem_map.2 ⟨p, hp, rfl⟩), rfl⟩)
  · intro hall c hc
    obtain ⟨k, hk, rfl⟩ := List.mem_map.1 hc
    obtain ⟨p, hp, hpk⟩ := List.mem_map.1 (mem_dedupFirst.1 hk)
    have h2 := hall p hp
    rw [hpk] at h2
    exact h2

/-- C5 (amended): on every well-formed Hamiltonian without `Hermitian`
factors, `is_diagonal` returns `True` exactly when, after pruning
identities and combining equal (same matrix and wires) non-diagonal
terms, every non-diagonal term has total coefficient zero (vacuously so
with no non-diagonal terms), and `False` otherwise. (On Hamiltonians with
`Hermitian` factors the method can instead raise, through the `decompose`
defect of C4 or its own use of `self._coeffs` with decomposed-term
indices; see the counterexample.) -/
theorem is_diagonal_spec :
    ∀ h : Hamiltonian, h.validb = true →
      (∀ o ∈ h.ops, ∀ b ∈ o.factors, b.name ≠ "Hermitian") →
      h.is_diagonal = .ok (groupedAllZero (nonDiagPairs h)) := by
  intro h hv hherm
  obtain ⟨hlen, -⟩ := validb_parts hv
  unfold Hamiltonian.is_diagonal
  rw [decompose_noherm h hv hherm]
  have hdl := diagLoop_eq h.ops [] h.coeffs ([], []) hlen
  rw [show ([] : List K) ++ h.coeffs = h.coeffs from rfl,
    show ([] : List K).length = 0 from rfl] at hdl
  show (diagLoop h.coeffs 0 (h.ops.map fun t => Obs.tensor t.factors) ([], [])).map
    (fun st => st.1.all fun c => c == 0) = _
  rw [hdl]
  show Except.ok ((((h.coeffs.zip h.ops).filterMap nonDiagEntry).foldl
    (fun acc p => diagInsert acc p.1 p.2) ([], [])).1.all fun c => c == 0) = _
  rw [accumVals_allZero]
  rfl

/-- C5 counterexample: on a Hamiltonian whose term is a bare `Hermitian`
observable (semantically the Pauli-X matrix, hence not diagonal),
`is_diagonal` raises `IndexError` through `decompose` instead of
returning `True` or `False`. -/
theorem is_diagonal_counterexample :
    Hamiltonian.is_diagonal ⟨[1], [.base (.hermitian matX [0])]⟩ =
      .error "IndexError: tuple index out of range" := by
  decide

/-- Witness for the amended C5 at a two-term Hamiltonian whose
non-diagonal `X (x) I` and `X` terms combine and cancel. -/
theorem is_diagonal_spec_witness :
    Hamiltonian.is_diagonal
      ⟨[1, -(1 : K)], [.tensor [.pauliX 0, .identity 1], .base (.pauliX 0)]⟩ = .ok true := by
  have h := is_diagonal_spec
    ⟨[1, -(1 : K)], [.tensor [.pauliX 0, .identity 1], .base (.pauliX 0)]⟩
    (by decide) (by decide)
  rw [h]
  decide

end PennyLane
